import Mathlib

/-!
# Verification of a MILP-based Sudoku solver

Shallow embedding of `main.py`: the variable indexing scheme `var_index`,
the constraint families the model builder emits, the solution extraction
loop, the solver status gate, and the `validate_sudoku` checker.  Grids are
`List (List Int)` (Python lists of ints); solver-returned variable values
are modelled as rationals `ℚ` (the claims under study concern the >0.5
thresholding of near-0/1 points, which is exact arithmetic on the returned
values, not floating-point rounding).

Every constraint the builder emits has the form "sum of the listed
variables equals 1" (the given-fixing constraints are singleton sums), so
a constraint is represented by the list of flat variable indices it sums,
and a constraint system by a list of constraints.
-/

namespace SudokuMILP

/-! ## Definitions -/

/-- `var_index(r, c, v) = r*n*n + c*n + (v-1)` with `n = 9` (main.py lines
42-43). Python integer arithmetic, hence `Int`. -/
def var_index (r c v : Int) : Int :=
  r * 9 * 9 + c * 9 + (v - 1)

/-- Inverse mapping used to express that `var_index` is invertible on its
domain: recover `(r, c, v)` from a flat index. -/
def var_index_inv (i : Int) : Int × Int × Int :=
  (i / 81, (i % 81) / 9, i % 9 + 1)

/-- `num_vars = n * n * n` (main.py line 29): the variable pool size,
independent of the puzzle. -/
def num_vars : Nat := 9 * 9 * 9

/-- Constraint 1 instance (lines 47-49): for cell `(r, c)`, the indices
`idx(r, c, v)` for `v in 1..9`. -/
def cellCon (r c : Nat) : List Int :=
  (List.range 9).map fun i : Nat => var_index (r : Int) (c : Int) ((i : Int) + 1)

/-- Constraint 2 instance (lines 52-54): for row `r` and value `v = i+1`,
the indices `idx(r, c, v)` for `c in 0..8`. -/
def rowCon (r i : Nat) : List Int :=
  (List.range 9).map fun c : Nat => var_index (r : Int) (c : Int) ((i : Int) + 1)

/-- Constraint 3 instance (lines 57-59): for column `c` and value
`v = i+1`, the indices `idx(r, c, v)` for `r in 0..8`. -/
def colCon (c i : Nat) : List Int :=
  (List.range 9).map fun r : Nat => var_index (r : Int) (c : Int) ((i : Int) + 1)

/-- Constraint 4 instance (lines 62-69): for block origin `(br, bc)` and
value `v = i+1`, the indices of the nine block cells. -/
def blockCon (br bc i : Nat) : List Int :=
  (List.range 3).flatMap fun dr : Nat => (List.range 3).map fun dc : Nat =>
    var_index ((br + dr : Nat) : Int) ((bc + dc : Nat) : Int) ((i : Int) + 1)

/-- Family of Constraint 1: `for r in rows: for c in cols` (81 constraints). -/
def cellConstraints : List (List Int) :=
  (List.range 9).flatMap fun r => (List.range 9).map fun c => cellCon r c

/-- Family of Constraint 2: `for r in rows: for v in values` (81 constraints). -/
def rowConstraints : List (List Int) :=
  (List.range 9).flatMap fun r => (List.range 9).map fun i => rowCon r i

/-- Family of Constraint 3: `for c in cols: for v in values` (81 constraints). -/
def colConstraints : List (List Int) :=
  (List.range 9).flatMap fun c => (List.range 9).map fun i => colCon c i

/-- Family of Constraint 4: `for br in range(0, 9, 3): for bc in
range(0, 9, 3): for v in values` (81 constraints). -/
def blockConstraints : List (List Int) :=
  [0, 3, 6].flatMap fun br => [0, 3, 6].flatMap fun bc =>
    (List.range 9).map fun i => blockCon br bc i

/-- Constraint 5 (lines 72-76): for each non-zero puzzle cell, the
singleton constraint `x[idx(r, c, val)] == 1`. -/
def givenConstraints (p : List (List Int)) : List (List Int) :=
  (List.range 9).flatMap fun r => (List.range 9).flatMap fun c =>
    if (p.getD r []).getD c 0 ≠ 0 then
      [[var_index (r : Int) (c : Int) ((p.getD r []).getD c 0)]]
    else []

/-- All constraints the model builder emits, in emission order. -/
def buildConstraints (p : List (List Int)) : List (List Int) :=
  cellConstraints ++ rowConstraints ++ colConstraints ++ blockConstraints ++
    givenConstraints p

/-- The number of non-zero (given) cells of a puzzle. -/
def numGivens (p : List (List Int)) : Nat :=
  ((List.range 9).map fun r =>
    ((List.range 9).filter fun c => (p.getD r []).getD c 0 != 0).length).sum

/-- A variable assignment `x` satisfies a constraint system when every
emitted constraint's sum of variable values equals 1. -/
def satisfies (x : Int → ℚ) (cs : List (List Int)) : Prop :=
  ∀ con ∈ cs, (con.map x).sum = 1

/-- One cell of the extraction loop (lines 90-95): Python initialises
`solution[r][c] = 0` and then, for `v` from 1 to 9, overwrites
`solution[r][c] = v` whenever `abs(h.val(x[idx])) > 0.5`.  There is no
`break`, so each later match overwrites the earlier one: the loop is a
left fold over `v = i+1` for `i < 9`. -/
def extract_cell (val : Int → ℚ) (r c : Nat) : Int :=
  (List.range 9).foldl
    (fun acc i =>
      if 1 / 2 < |val (var_index (r : Int) (c : Int) ((i : Int) + 1))| then
        (i : Int) + 1
      else acc)
    0

/-- The extracted 9×9 solution grid (lines 88-97). -/
def extract (val : Int → ℚ) : List (List Int) :=
  (List.range 9).map fun r => (List.range 9).map fun c => extract_cell val r c

/-- One group check of `validate_sudoku`:
`len(set(group)) == 9 and sum(group) == 45`
(`len(set ·)` is the number of distinct elements, i.e. `dedup.length`). -/
def group_ok (g : List Int) : Bool :=
  g.dedup.length == 9 && g.sum == 45

/-- Row `r` of a grid: `puzzle[r]`. -/
def rowOf (p : List (List Int)) (r : Nat) : List Int := p.getD r []

/-- Column `c` of a grid: `[puzzle[r][c] for r in range(9)]`. -/
def colOf (p : List (List Int)) (c : Nat) : List Int :=
  (List.range 9).map fun r => (p.getD r []).getD c 0

/-- Block at origin `(br, bc)`:
`[puzzle[r][c] for r in range(br, br+3) for c in range(bc, bc+3)]`. -/
def blockOf (p : List (List Int)) (br bc : Nat) : List Int :=
  (List.range 3).flatMap fun dr => (List.range 3).map fun dc =>
    (p.getD (br + dr) []).getD (bc + dc) 0

/-- `validate_sudoku` (main.py lines 116-138): every row, column and block
passes `group_ok`; block origins iterate over `range(0, 9, 3) = [0, 3, 6]`. -/
def validate_sudoku (p : List (List Int)) : Bool :=
  ((List.range 9).all fun r => group_ok (rowOf p r)) &&
  ((List.range 9).all fun c => group_ok (colOf p c)) &&
  ([0, 3, 6].all fun br => [0, 3, 6].all fun bc => group_ok (blockOf p br bc))

/-- The HiGHS model status enumeration consumed through
`h.getModelStatus()` (the backend's open-ended status set). -/
inductive HighsModelStatus where
  | kNotset | kLoadError | kModelError | kPresolveError | kSolveError
  | kPostsolveError | kModelEmpty | kOptimal | kInfeasible
  | kUnboundedOrInfeasible | kUnbounded | kObjectiveBound | kObjectiveTarget
  | kTimeLimit | kIterationLimit | kUnknown | kSolutionLimit | kInterrupt
  deriving DecidableEq

/-- The status gate and result of `solve_sudoku` (lines 82-97): if the
status is anything other than `kOptimal` the function returns `None`;
only on `kOptimal` does it build and return the extracted grid. -/
def solve_result (status : HighsModelStatus) (vals : Int → ℚ) :
    Option (List (List Int)) :=
  if status ≠ HighsModelStatus.kOptimal then none else some (extract vals)

/-- The target list `[1, ..., 9]`: a group is "a permutation of 1–9" iff
it is a `List.Perm` of this list. -/
def oneToNine : List Int := [1, 2, 3, 4, 5, 6, 7, 8, 9]

/-- A concrete solver output in which, for cell `(0,0)`, both `v = 1`
(index 0) and `v = 2` (index 1) exceed the 0.5 threshold. -/
def twoMatchVals : Int → ℚ := fun i => if i = 0 ∨ i = 1 then 1 else 0

/-- The grid obtained from a canonical completed Sudoku by replacing every
`9` with `0` and every `1` with `10`: each group still has 9 distinct
elements summing to 45, but is not a permutation of 1–9. -/
def shiftedGrid : List (List Int) :=
  [[10, 2, 3, 4, 5, 6, 7, 8, 0],
   [4, 5, 6, 7, 8, 0, 10, 2, 3],
   [7, 8, 0, 10, 2, 3, 4, 5, 6],
   [2, 3, 4, 5, 6, 7, 8, 0, 10],
   [5, 6, 7, 8, 0, 10, 2, 3, 4],
   [8, 0, 10, 2, 3, 4, 5, 6, 7],
   [3, 4, 5, 6, 7, 8, 0, 10, 2],
   [6, 7, 8, 0, 10, 2, 3, 4, 5],
   [0, 10, 2, 3, 4, 5, 6, 7, 8]]

/-- A canonical valid completed Sudoku grid, used as concrete witness
input. -/
def solvedGrid : List (List Int) :=
  [[1, 2, 3, 4, 5, 6, 7, 8, 9],
   [4, 5, 6, 7, 8, 9, 1, 2, 3],
   [7, 8, 9, 1, 2, 3, 4, 5, 6],
   [2, 3, 4, 5, 6, 7, 8, 9, 1],
   [5, 6, 7, 8, 9, 1, 2, 3, 4],
   [8, 9, 1, 2, 3, 4, 5, 6, 7],
   [3, 4, 5, 6, 7, 8, 9, 1, 2],
   [6, 7, 8, 9, 1, 2, 3, 4, 5],
   [9, 1, 2, 3, 4, 5, 6, 7, 8]]

/-- The all-blank puzzle. -/
def zeroPuzzle : List (List Int) := List.replicate 9 (List.replicate 9 0)

/-- A puzzle with the single given `1` at cell `(0, 0)`, compatible with
`solvedGrid`. -/
def onePuzzle : List (List Int) :=
  [1, 0, 0, 0, 0, 0, 0, 0, 0] :: List.replicate 8 (List.replicate 9 0)

/-- The condition defining the spec's round-trip assignment: variable `i`
is set iff the grid holds the decoded value at the decoded cell, i.e.
`grid[r][c] == v` where `(r, c, v) = var_index_inv i`. -/
def gridAssignP (g : List (List Int)) (i : Int) : Prop :=
  (g.getD (i / 81).toNat []).getD (i % 81 / 9).toNat 0 = i % 9 + 1

instance gridAssignP.decidable (g : List (List Int)) (i : Int) :
    Decidable (gridAssignP g i) := by
  unfold gridAssignP
  infer_instance

/-- The variable assignment derived from a completed grid, as the spec
describes: `idx(r,c,v) = 1` iff `grid[r][c] == v`, else `0`. -/
def gridAssign (g : List (List Int)) : Int → ℚ :=
  fun i => if gridAssignP g i then 1 else 0

/-! ## Theorems -/

/-- C1: `var_index` is a bijection from
`{(r,c,v) : r ∈ [0,9), c ∈ [0,9), v ∈ [1,9]}` onto `[0,729)`:
every in-domain triple maps into `[0,729)`, distinct triples map to distinct
indices (injectivity), `var_index_inv` recovers the triple (invertibility),
and every index in `[0,729)` is hit by an in-domain triple (surjectivity). -/
theorem var_index_bijective :
    (∀ r c v : Int, 0 ≤ r → r < 9 → 0 ≤ c → c < 9 → 1 ≤ v → v ≤ 9 →
      0 ≤ var_index r c v ∧ var_index r c v < 729) ∧
    (∀ r c v r' c' v' : Int, 0 ≤ r → r < 9 → 0 ≤ c → c < 9 → 1 ≤ v → v ≤ 9 →
      0 ≤ r' → r' < 9 → 0 ≤ c' → c' < 9 → 1 ≤ v' → v' ≤ 9 →
      var_index r c v = var_index r' c' v' → r = r' ∧ c = c' ∧ v = v') ∧
    (∀ r c v : Int, 0 ≤ r → r < 9 → 0 ≤ c → c < 9 → 1 ≤ v → v ≤ 9 →
      var_index_inv (var_index r c v) = (r, c, v)) ∧
    (∀ i : Int, 0 ≤ i → i < 729 →
      ∃ r c v : Int, 0 ≤ r ∧ r < 9 ∧ 0 ≤ c ∧ c < 9 ∧ 1 ≤ v ∧ v ≤ 9 ∧
        var_index r c v = i) := by
  refine ⟨?_, ?_, ?_, ?_⟩
  · intro r c v hr0 hr9 hc0 hc9 hv1 hv9
    unfold var_index
    omega
  · intro r c v r' c' v' hr0 hr9 hc0 hc9 hv1 hv9 hr0' hr9' hc0' hc9' hv1' hv9' h
    unfold var_index at h
    omega
  · intro r c v hr0 hr9 hc0 hc9 hv1 hv9
    unfold var_index var_index_inv
    refine Prod.ext ?_ (Prod.ext ?_ ?_) <;> simp only <;> omega
  · intro i hi0 hi729
    refine ⟨i / 81, (i % 81) / 9, i % 9 + 1, ?_, ?_, ?_, ?_, ?_, ?_, ?_⟩ <;>
      first
        | omega
        | (simp only [var_index]; omega)

/-- Witness for C1 at the concrete triple `(1, 2, 3)` and index `100`. -/
theorem var_index_bijective_witness :
    (0 ≤ var_index 1 2 3 ∧ var_index 1 2 3 < 729) ∧
    var_index_inv (var_index 1 2 3) = (1, 2, 3) ∧
    (∃ r c v : Int, 0 ≤ r ∧ r < 9 ∧ 0 ≤ c ∧ c < 9 ∧ 1 ≤ v ∧ v ≤ 9 ∧
      var_index r c v = 100) :=
  ⟨var_index_bijective.1 1 2 3 (by decide) (by decide) (by decide) (by decide)
      (by decide) (by decide),
   var_index_bijective.2.2.1 1 2 3 (by decide) (by decide) (by decide) (by decide)
      (by decide) (by decide),
   var_index_bijective.2.2.2 100 (by decide) (by decide)⟩

/-- A fold that overwrites the accumulator with `i+1` at every index
satisfying `q` returns `i0+1` when `q i0` holds and no later index
satisfies `q`. -/
theorem foldl_overwrite_eq {q : Nat → Prop} [DecidablePred q] :
    ∀ n i0 : Nat, i0 < n → q i0 → (∀ j, i0 < j → j < n → ¬q j) →
      (List.range n).foldl (fun acc i => if q i then (i : Int) + 1 else acc) 0 =
        (i0 : Int) + 1 := by
  intro n
  induction n with
  | zero => intro i0 h0 _ _; omega
  | succ n ih =>
    intro i0 h0 hq hlater
    rw [List.range_succ, List.foldl_append, List.foldl_cons, List.foldl_nil]
    by_cases hn : q n
    · have hi0 : i0 = n := by
        by_contra hne
        exact hlater n (by omega) (by omega) hn
      subst hi0
      rw [if_pos hn]
    · rw [if_neg hn]
      have hi0n : i0 < n := by
        rcases Nat.lt_succ_iff_lt_or_eq.mp h0 with h | h
        · exact h
        · exact absurd hq (h ▸ hn)
      exact ih i0 hi0n hq fun j hj1 hj2 => hlater j hj1 (by omega)

/-- Reading the extracted grid at in-range `(r, c)` gives `extract_cell`. -/
theorem extract_getD (val : Int → ℚ) (r c : Nat) (hr : r < 9) (hc : c < 9) :
    ((extract val).getD r []).getD c 0 = extract_cell val r c := by
  simp [extract, List.getD_eq_getElem?_getD, List.getElem?_map, List.getElem?_range, hr, hc]

/-- For a value that is 0 or 1, exceeding the 0.5 threshold in absolute
value is the same as being 1. -/
theorem threshold_iff_eq_one {a : ℚ} (h : a = 0 ∨ a = 1) :
    (1 / 2 < |a|) ↔ a = 1 := by
  rcases h with h | h <;> subst h <;> norm_num

theorem twoMatchVals_eq_one {i : Int} (h : i = 0 ∨ i = 1) : twoMatchVals i = 1 := by
  simp [twoMatchVals, h]

theorem twoMatchVals_eq_zero {i : Int} (h : ¬(i = 0 ∨ i = 1)) : twoMatchVals i = 0 := by
  simp only [twoMatchVals, if_neg h]

/-- Counterexample to C3: at `twoMatchVals`, both `v = 1` and `v = 2`
exceed the threshold for cell `(0,0)`, yet the extracted value is `2`,
not the smallest match `1` — the loop has no `break`, so the last match
wins. -/
theorem extract_first_match_counterexample :
    1 / 2 < |twoMatchVals (var_index 0 0 1)| ∧
    1 / 2 < |twoMatchVals (var_index 0 0 2)| ∧
    ((extract twoMatchVals).getD 0 []).getD 0 0 ≠ 1 ∧
    ((extract twoMatchVals).getD 0 []).getD 0 0 = 2 := by
  have e1 : var_index 0 0 1 = 0 := by norm_num [var_index]
  have e2 : var_index 0 0 2 = 1 := by norm_num [var_index]
  have h1 : 1 / 2 < |twoMatchVals (var_index 0 0 1)| := by
    rw [e1, twoMatchVals_eq_one (Or.inl rfl)]; norm_num
  have h2 : 1 / 2 < |twoMatchVals (var_index 0 0 2)| := by
    rw [e2, twoMatchVals_eq_one (Or.inr rfl)]; norm_num
  have hcell : ((extract twoMatchVals).getD 0 []).getD 0 0 = 2 := by
    rw [extract_getD twoMatchVals 0 0 (by norm_num) (by norm_num)]
    have h := foldl_overwrite_eq
      (q := fun j : Nat =>
        1 / 2 < |twoMatchVals (var_index ((0 : Nat) : Int) ((0 : Nat) : Int) ((j : Int) + 1))|)
      9 1 (by norm_num)
      (by
        show 1 / 2 <
          |twoMatchVals (var_index ((0 : Nat) : Int) ((0 : Nat) : Int) (((1 : Nat) : Int) + 1))|
        have : var_index ((0 : Nat) : Int) ((0 : Nat) : Int) (((1 : Nat) : Int) + 1) = 1 := by
          norm_num [var_index]
        rw [this, twoMatchVals_eq_one (Or.inr rfl)]; norm_num)
      (by
        intro j hj1 hj2
        show ¬(1 / 2 <
          |twoMatchVals (var_index ((0 : Nat) : Int) ((0 : Nat) : Int) ((j : Int) + 1))|)
        have hv : var_index ((0 : Nat) : Int) ((0 : Nat) : Int) ((j : Int) + 1) = (j : Int) := by
          simp [var_index]
        rw [hv, twoMatchVals_eq_zero (by omega)]
        norm_num)
    simpa [extract_cell] using h
  exact ⟨h1, h2, by rw [hcell]; norm_num, hcell⟩

/-- C3 amended: extraction scans `v ∈ [1,9]` in increasing order and each
match overwrites the cell, so the cell's value is the LARGEST `v` whose
returned variable value exceeds 0.5 in absolute value (the last match,
not the first). -/
theorem extract_last_match (val : Int → ℚ) (r c i0 : Nat)
    (hr : r < 9) (hc : c < 9) (h0 : i0 < 9)
    (hq : 1 / 2 < |val (var_index (r : Int) (c : Int) ((i0 : Int) + 1))|)
    (hlater : ∀ j, i0 < j → j < 9 →
      ¬(1 / 2 < |val (var_index (r : Int) (c : Int) ((j : Int) + 1))|)) :
    ((extract val).getD r []).getD c 0 = (i0 : Int) + 1 := by
  rw [extract_getD val r c hr hc]
  exact foldl_overwrite_eq 9 i0 h0 hq hlater

/-- Witness for the amended C3 at `twoMatchVals`, cell `(0,0)`: the two
matches are `v = 1, 2` and extraction returns `2`. -/
theorem extract_last_match_witness :
    ((extract twoMatchVals).getD 0 []).getD 0 0 = ((1 : Nat) : Int) + 1 :=
  extract_last_match twoMatchVals 0 0 1 (by norm_num) (by norm_num) (by norm_num)
    (by
      have : var_index ((0 : Nat) : Int) ((0 : Nat) : Int) (((1 : Nat) : Int) + 1) = 1 := by
        norm_num [var_index]
      rw [this, twoMatchVals_eq_one (Or.inr rfl)]; norm_num)
    (fun j hj1 hj2 => by
      have hv : var_index ((0 : Nat) : Int) ((0 : Nat) : Int) ((j : Int) + 1) = (j : Int) := by
        simp [var_index]
      rw [hv, twoMatchVals_eq_zero (by omega)]
      norm_num)

/-- A 9-element list containing every value `1..9` is a permutation of
`[1, ..., 9]`. -/
theorem perm_oneToNine_of_length_of_mem {l : List Int} (hlen : l.length = 9)
    (hmem : ∀ k : Int, k ∈ oneToNine → k ∈ l) : l.Perm oneToNine := by
  have hnd : oneToNine.Nodup := by decide
  have hsp : oneToNine.Subperm l := List.subperm_of_subset hnd hmem
  exact (hsp.perm_of_length_le (by simp [hlen, oneToNine])).symm

/-- The heart of the validator's correctness on range-bounded groups:
for a 9-element group with entries in `[0, 9]`, "9 distinct elements and
sum 45" is equivalent to "permutation of 1–9". -/
theorem group_ok_iff_perm {g : List Int} (hlen : g.length = 9)
    (hbd : ∀ a ∈ g, 0 ≤ a ∧ a ≤ 9) :
    group_ok g = true ↔ g.Perm oneToNine := by
  simp only [group_ok, Bool.and_eq_true, beq_iff_eq]
  constructor
  · rintro ⟨hdl, hsum⟩
    have hded : g.dedup = g :=
      (List.dedup_sublist g).eq_of_length (by rw [hdl, hlen])
    have hnd : g.Nodup := hded ▸ List.nodup_dedup g
    have hcard : g.toFinset.card = 9 := by
      rw [List.toFinset_card_of_nodup hnd, hlen]
    have hsub : g.toFinset ⊆ Finset.Icc (0 : ℤ) 9 := by
      intro a ha
      exact Finset.mem_Icc.mpr (hbd a (List.mem_toFinset.mp ha))
    have hsum' : g.toFinset.sum id = 45 := by
      rw [List.sum_toFinset id hnd]
      simpa using hsum
    have hT : (Finset.Icc (0 : ℤ) 9).sum id = 45 := by decide
    have hTcard : (Finset.Icc (0 : ℤ) 9).card = 10 := by decide
    have hdiffsum : ((Finset.Icc (0 : ℤ) 9) \ g.toFinset).sum id = 0 := by
      have := Finset.sum_sdiff (f := id) hsub
      rw [hsum', hT] at this
      linarith
    have hdiffcard : ((Finset.Icc (0 : ℤ) 9) \ g.toFinset).card = 1 := by
      rw [Finset.card_sdiff hsub, hcard, hTcard]
    obtain ⟨a, ha⟩ := Finset.card_eq_one.mp hdiffcard
    have ha0 : a = 0 := by
      have := hdiffsum
      rw [ha, Finset.sum_singleton] at this
      exact this
    refine perm_oneToNine_of_length_of_mem hlen fun k hk => ?_
    have hk19 : 1 ≤ k ∧ k ≤ 9 := by
      fin_cases hk <;> norm_num
    have hkT : k ∈ Finset.Icc (0 : ℤ) 9 := Finset.mem_Icc.mpr ⟨by linarith [hk19.1], hk19.2⟩
    have hknot : k ∉ (Finset.Icc (0 : ℤ) 9) \ g.toFinset := by
      rw [ha, Finset.mem_singleton, ha0]
      intro h
      subst h
      exact absurd hk19.1 (by norm_num)
    have : k ∈ g.toFinset := by
      by_contra hkg
      exact hknot (Finset.mem_sdiff.mpr ⟨hkT, hkg⟩)
    exact List.mem_toFinset.mp this
  · intro hperm
    have hnd : g.Nodup := hperm.nodup_iff.mpr (by decide)
    constructor
    · rw [List.dedup_eq_self.mpr hnd, hlen]
    · rw [hperm.sum_eq]
      decide

/-- Counterexample to C4 as stated for arbitrary integer grids:
`validate_sudoku` accepts `shiftedGrid`, whose rows are NOT permutations
of 1–9 (and whose row 0, with 9 distinct elements summing to 45, is not
the set `{1, ..., 9}`). The claimed equivalence needs the entries to be
restricted to `[0, 9]`. -/
theorem validate_sudoku_counterexample :
    validate_sudoku shiftedGrid = true ∧
    ¬(rowOf shiftedGrid 0).Perm oneToNine ∧
    (rowOf shiftedGrid 0).dedup.length = 9 ∧
    (rowOf shiftedGrid 0).sum = 45 := by
  refine ⟨by decide, by decide, by decide, by decide⟩

/-- C4 amended: restricted to 9×9 grids with entries in `[0, 9]`,
`validate_sudoku` returns `true` iff every row, column and block is a
permutation of 1–9; and for any 9-element group with entries in `[0, 9]`,
"9 distinct elements and sum 45" is equivalent to "permutation of 1–9". -/
theorem validate_sudoku_iff_perm :
    (∀ p : List (List Int), p.length = 9 → (∀ row ∈ p, row.length = 9) →
      (∀ row ∈ p, ∀ a ∈ row, 0 ≤ a ∧ a ≤ 9) →
      (validate_sudoku p = true ↔
        ((∀ r, r < 9 → (rowOf p r).Perm oneToNine) ∧
         (∀ c, c < 9 → (colOf p c).Perm oneToNine) ∧
         (∀ br ∈ [0, 3, 6], ∀ bc ∈ [0, 3, 6], (blockOf p br bc).Perm oneToNine)))) ∧
    (∀ g : List Int, g.length = 9 → (∀ a ∈ g, 0 ≤ a ∧ a ≤ 9) →
      ((g.dedup.length = 9 ∧ g.sum = 45) ↔ g.Perm oneToNine)) := by
  constructor
  · intro p hplen hrowlen hbd
    have hentry : ∀ r c : Nat, r < 9 → c < 9 →
        0 ≤ (p.getD r []).getD c 0 ∧ (p.getD r []).getD c 0 ≤ 9 := by
      intro r c hr hc
      have hrp : r < p.length := by omega
      have hrow : p.getD r [] = p[r] := List.getD_eq_getElem p [] hrp
      have hrl : p[r].length = 9 := hrowlen _ (List.getElem_mem hrp)
      have hcp : c < p[r].length := by omega
      have hcell : (p.getD r []).getD c 0 = p[r][c] := by
        rw [hrow]
        exact List.getD_eq_getElem p[r] 0 hcp
      rw [hcell]
      exact hbd _ (List.getElem_mem hrp) _ (List.getElem_mem hcp)
    have hrowlen' : ∀ r, r < 9 → (rowOf p r).length = 9 := by
      intro r hr
      have hrp : r < p.length := by omega
      rw [rowOf, List.getD_eq_getElem p [] hrp]
      exact hrowlen _ (List.getElem_mem hrp)
    have hrowbd : ∀ r, r < 9 → ∀ a ∈ rowOf p r, 0 ≤ a ∧ a ≤ 9 := by
      intro r hr a ha
      have hrp : r < p.length := by omega
      rw [rowOf, List.getD_eq_getElem p [] hrp] at ha
      exact hbd _ (List.getElem_mem hrp) a ha
    have hcollen : ∀ c, (colOf p c).length = 9 := by
      intro c; simp [colOf]
    have hcolbd : ∀ c, c < 9 → ∀ a ∈ colOf p c, 0 ≤ a ∧ a ≤ 9 := by
      intro c hc a ha
      simp only [colOf, List.mem_map, List.mem_range] at ha
      obtain ⟨r, hr, rfl⟩ := ha
      exact hentry r c hr hc
    have hblocklen : ∀ br bc, (blockOf p br bc).length = 9 := by
      intro br bc
      simp [blockOf, List.length_flatMap, Function.comp, List.range_succ]
    have hblockbd : ∀ br ∈ ([0, 3, 6] : List Nat), ∀ bc ∈ ([0, 3, 6] : List Nat),
        ∀ a ∈ blockOf p br bc, 0 ≤ a ∧ a ≤ 9 := by
      intro br hbr bc hbc a ha
      simp only [blockOf, List.mem_flatMap, List.mem_map, List.mem_range] at ha
      obtain ⟨dr, hdr, dc, hdc, rfl⟩ := ha
      have hbr9 : br + dr < 9 := by fin_cases hbr <;> omega
      have hbc9 : bc + dc < 9 := by fin_cases hbc <;> omega
      exact hentry _ _ hbr9 hbc9
    simp only [validate_sudoku, Bool.and_eq_true, List.all_eq_true, List.mem_range]
    constructor
    · rintro ⟨⟨hrows, hcols⟩, hblocks⟩
      refine ⟨fun r hr => ?_, fun c hc => ?_, fun br hbr bc hbc => ?_⟩
      · exact (group_ok_iff_perm (hrowlen' r hr) (hrowbd r hr)).mp (hrows r hr)
      · exact (group_ok_iff_perm (hcollen c) (hcolbd c hc)).mp (hcols c hc)
      · exact (group_ok_iff_perm (hblocklen br bc) (hblockbd br hbr bc hbc)).mp
          (hblocks br hbr bc hbc)
    · rintro ⟨hrows, hcols, hblocks⟩
      refine ⟨⟨fun r hr => ?_, fun c hc => ?_⟩, fun br hbr bc hbc => ?_⟩
      · exact (group_ok_iff_perm (hrowlen' r hr) (hrowbd r hr)).mpr (hrows r hr)
      · exact (group_ok_iff_perm (hcollen c) (hcolbd c hc)).mpr (hcols c hc)
      · exact (group_ok_iff_perm (hblocklen br bc) (hblockbd br hbr bc hbc)).mpr
          (hblocks br hbr bc hbc)
  · intro g hlen hbd
    have := group_ok_iff_perm hlen hbd
    simp only [group_ok, Bool.and_eq_true, beq_iff_eq] at this
    exact this

/-- Witness for the amended C4 at `solvedGrid`: the validator accepts it
and row 0 is a permutation of 1–9. -/
theorem validate_sudoku_iff_perm_witness :
    validate_sudoku solvedGrid = true ∧ (rowOf solvedGrid 0).Perm oneToNine := by
  have h := (validate_sudoku_iff_perm.1 solvedGrid (by decide) (by decide) (by decide)).mpr
    ⟨by decide, by decide, by decide⟩
  exact ⟨h, by decide⟩

/-- C9: a 9×9 grid with entries in `[0, 9]` that contains a zero entry is
always rejected by `validate_sudoku`: a group of 9 distinct values drawn
from `[0, 9]` that contains 0 cannot sum to 45. -/
theorem validate_sudoku_rejects_zero (p : List (List Int))
    (hplen : p.length = 9) (hrowlen : ∀ row ∈ p, row.length = 9)
    (hbd : ∀ row ∈ p, ∀ a ∈ row, 0 ≤ a ∧ a ≤ 9)
    (r c : Nat) (hr : r < 9) (hc : c < 9)
    (hzero : (p.getD r []).getD c 0 = 0) :
    validate_sudoku p = false := by
  cases hval : validate_sudoku p with
  | false => rfl
  | true =>
    exfalso
    have hrp : r < p.length := by omega
    have hrowmem : p[r] ∈ p := List.getElem_mem hrp
    have hrl : (rowOf p r).length = 9 := by
      rw [rowOf, List.getD_eq_getElem p [] hrp]
      exact hrowlen _ hrowmem
    have hrowbd : ∀ a ∈ rowOf p r, 0 ≤ a ∧ a ≤ 9 := by
      intro a ha
      rw [rowOf, List.getD_eq_getElem p [] hrp] at ha
      exact hbd _ hrowmem a ha
    have hgok : group_ok (rowOf p r) = true := by
      have := hval
      simp only [validate_sudoku, Bool.and_eq_true, List.all_eq_true,
        List.mem_range] at this
      exact this.1.1 r hr
    have hperm : (rowOf p r).Perm oneToNine :=
      (group_ok_iff_perm hrl hrowbd).mp hgok
    have hmem : (0 : Int) ∈ rowOf p r := by
      have hcl : c < (rowOf p r).length := by omega
      have hg : (rowOf p r).getD c 0 = 0 := hzero
      rw [List.getD_eq_getElem (rowOf p r) 0 hcl] at hg
      exact hg ▸ List.getElem_mem hcl
    have : (0 : Int) ∈ oneToNine := hperm.mem_iff.mp hmem
    simp [oneToNine] at this

/-- Witness for C9 at the all-zero grid and cell `(0, 0)`. -/
theorem validate_sudoku_rejects_zero_witness :
    validate_sudoku zeroPuzzle = false :=
  validate_sudoku_rejects_zero zeroPuzzle (by decide) (by decide) (by decide)
    0 0 (by decide) (by decide) (by decide)

/-- Flat-mapping a one-or-none list over `l` yields as many elements as
the filter keeps. -/
theorem length_flatMap_ite {β : Type} (l : List Nat) (q : Nat → Prop)
    [DecidablePred q] (f : Nat → β) :
    (l.flatMap fun c => if q c then [f c] else []).length =
      (l.filter fun c => decide (q c)).length := by
  induction l with
  | nil => rfl
  | cons a l ih =>
    by_cases h : q a <;>
      simp [List.flatMap_cons, List.filter_cons, h, ih]

/-- C5: the model builder emits exactly 81 constraints in each of the four
exactly-one families (324 uniqueness constraints in total), plus exactly
one fixing constraint per non-zero puzzle cell, and sizes the variable
pool at 729 regardless of the puzzle. -/
theorem builder_constraint_counts (p : List (List Int)) :
    cellConstraints.length = 81 ∧
    rowConstraints.length = 81 ∧
    colConstraints.length = 81 ∧
    blockConstraints.length = 81 ∧
    (givenConstraints p).length = numGivens p ∧
    (buildConstraints p).length = 324 + numGivens p ∧
    num_vars = 729 := by
  have hcell : cellConstraints.length = 81 := by decide
  have hrow : rowConstraints.length = 81 := by decide
  have hcol : colConstraints.length = 81 := by decide
  have hblock : blockConstraints.length = 81 := by decide
  have hgiven : (givenConstraints p).length = numGivens p := by
    unfold givenConstraints numGivens
    rw [List.length_flatMap]
    congr 1
    apply List.map_congr_left
    intro r _
    rw [Function.comp_apply,
      length_flatMap_ite (List.range 9) (fun c => (p.getD r []).getD c 0 ≠ 0)
        (fun c => [var_index (r : Int) (c : Int) ((p.getD r []).getD c 0)])]
    congr 1
    apply List.filter_congr
    intro c _
    generalize (p.getD r []).getD c 0 = a
    by_cases hx : a = 0 <;> simp [hx]
  refine ⟨hcell, hrow, hcol, hblock, hgiven, ?_, rfl⟩
  unfold buildConstraints
  simp only [List.length_append, hcell, hrow, hcol, hblock, hgiven]

/-- C7: the solve operation returns a grid iff the solver status is
`kOptimal` (the only feasible-class model status HiGHS reports for this
feasibility problem); for every other status — infeasible, unbounded,
error, or any other backend-specific status — it returns `none`, never a
partially filled grid. -/
theorem solve_result_only_optimal (status : HighsModelStatus) (vals : Int → ℚ) :
    ((∃ g : List (List Int), solve_result status vals = some g) ↔
      status = HighsModelStatus.kOptimal) ∧
    (status ≠ HighsModelStatus.kOptimal → solve_result status vals = none) := by
  by_cases h : status = HighsModelStatus.kOptimal <;>
    simp [solve_result, h]

/-- Witness for C7: the infeasible status yields `none`. -/
theorem solve_result_only_optimal_witness :
    solve_result HighsModelStatus.kInfeasible (fun _ => 0) = none :=
  (solve_result_only_optimal HighsModelStatus.kInfeasible (fun _ => 0)).2
    (by decide)

/-- C10: with all puzzle entries in `[0, 9]`, the given-fixing step only
computes variable indices in `[0, 729)`; without that precondition the
guarantee fails — the entry `10` at cell `(8, 8)` yields
`var_index 8 8 10 = 729`, outside `[0, 729)`. -/
theorem given_fixing_in_bounds :
    (∀ p : List (List Int), (∀ row ∈ p, ∀ a ∈ row, 0 ≤ a ∧ a ≤ 9) →
      ∀ r c : Nat, r < 9 → c < 9 → (p.getD r []).getD c 0 ≠ 0 →
        0 ≤ var_index (r : Int) (c : Int) ((p.getD r []).getD c 0) ∧
        var_index (r : Int) (c : Int) ((p.getD r []).getD c 0) < 729) ∧
    ¬(0 ≤ var_index 8 8 10 ∧ var_index 8 8 10 < 729) ∧
    var_index 8 8 10 = 729 := by
  refine ⟨?_, ?_, by norm_num [var_index]⟩
  · intro p hbd r c hr hc hnz
    have hval : 0 ≤ (p.getD r []).getD c 0 ∧ (p.getD r []).getD c 0 ≤ 9 := by
      by_cases hrp : r < p.length
      · have hrow : p.getD r [] = p[r] := List.getD_eq_getElem p [] hrp
        by_cases hcp : c < p[r].length
        · have : (p.getD r []).getD c 0 = p[r][c] := by
            rw [hrow]
            exact List.getD_eq_getElem p[r] 0 hcp
          rw [this]
          exact hbd _ (List.getElem_mem hrp) _ (List.getElem_mem hcp)
        · have : (p.getD r []).getD c 0 = 0 := by
            rw [hrow]
            exact List.getD_eq_default p[r] 0 (by omega)
          exact absurd this hnz
      · have : p.getD r [] = [] := List.getD_eq_default p [] (by omega)
        rw [this] at hnz
        exact absurd (by simp [List.getD]) hnz
    simp only [var_index]
    omega
  · simp only [var_index]
    omega

/-- Witness for C10 at `onePuzzle`, whose given `1` at `(0, 0)` maps into
bounds. -/
theorem given_fixing_in_bounds_witness :
    0 ≤ var_index ((0 : Nat) : Int) ((0 : Nat) : Int) ((onePuzzle.getD 0 []).getD 0 0) ∧
    var_index ((0 : Nat) : Int) ((0 : Nat) : Int) ((onePuzzle.getD 0 []).getD 0 0) < 729 :=
  given_fixing_in_bounds.1 onePuzzle (by decide) 0 0 (by decide) (by decide)
    (by decide)

/-- In-domain indices stay inside the variable pool. -/
theorem var_index_bounds {r c k : Nat} (hr : r < 9) (hc : c < 9) (hk : k < 9) :
    0 ≤ var_index (r : Int) (c : Int) ((k : Int) + 1) ∧
    var_index (r : Int) (c : Int) ((k : Int) + 1) < 729 := by
  simp only [var_index]
  omega

/-- Within one cell, distinct candidate values give distinct indices. -/
theorem var_index_value_inj {r c k k' : Nat}
    (h : var_index (r : Int) (c : Int) ((k : Int) + 1) =
      var_index (r : Int) (c : Int) ((k' : Int) + 1)) : k = k' := by
  simp only [var_index] at h
  omega

/-- A non-zero entry of a `[0, 9]`-bounded grid lies in `[1, 9]`. -/
theorem entry_bounds_of_nz {p : List (List Int)}
    (hbd : ∀ row ∈ p, ∀ a ∈ row, 0 ≤ a ∧ a ≤ 9) {r c : Nat}
    (hnz : (p.getD r []).getD c 0 ≠ 0) :
    1 ≤ (p.getD r []).getD c 0 ∧ (p.getD r []).getD c 0 ≤ 9 := by
  by_cases hrp : r < p.length
  · have hrow : p.getD r [] = p[r] := List.getD_eq_getElem p [] hrp
    by_cases hcp : c < p[r].length
    · have hcell : (p.getD r []).getD c 0 = p[r][c] := by
        rw [hrow]
        exact List.getD_eq_getElem p[r] 0 hcp
      have := hbd _ (List.getElem_mem hrp) _ (List.getElem_mem hcp)
      rw [hcell] at hnz ⊢
      omega
    · have : (p.getD r []).getD c 0 = 0 := by
        rw [hrow]
        exact List.getD_eq_default p[r] 0 (by omega)
      exact absurd this hnz
  · have : p.getD r [] = [] := List.getD_eq_default p [] (by omega)
    rw [this] at hnz
    exact absurd (by simp [List.getD]) hnz

/-- The sum of a list of 0/1 values is nonnegative. -/
theorem list_sum_nonneg_01 {x : Int → ℚ} :
    ∀ {l : List Int}, (∀ i ∈ l, x i = 0 ∨ x i = 1) → 0 ≤ (l.map x).sum := by
  intro l
  induction l with
  | nil => intro _; simp
  | cons a l ih =>
    intro h
    simp only [List.map_cons, List.sum_cons]
    have ha := h a (List.mem_cons_self a l)
    have hl := ih fun i hi => h i (List.mem_cons_of_mem a hi)
    rcases ha with ha | ha <;> rw [ha] <;> linarith

/-- If a list of 0/1 values sums to 0, every value is 0. -/
theorem list_sum_zero_01 {x : Int → ℚ} :
    ∀ {l : List Int}, (∀ i ∈ l, x i = 0 ∨ x i = 1) → (l.map x).sum = 0 →
      ∀ i ∈ l, x i = 0 := by
  intro l
  induction l with
  | nil => intro _ _ i hi; simp at hi
  | cons a l ih =>
    intro h hsum i hi
    simp only [List.map_cons, List.sum_cons] at hsum
    have hl01 : ∀ j ∈ l, x j = 0 ∨ x j = 1 := fun j hj => h j (List.mem_cons_of_mem a hj)
    have hlnn : 0 ≤ (l.map x).sum := list_sum_nonneg_01 hl01
    have hxa : x a = 0 := by
      rcases h a (List.mem_cons_self a l) with ha | ha
      · exact ha
      · exfalso; rw [ha] at hsum; linarith
    have hlsum : (l.map x).sum = 0 := by rw [hxa] at hsum; linarith
    rcases List.mem_cons.mp hi with rfl | hi
    · exact hxa
    · exact ih hl01 hlsum i hi

/-- If a list of 0/1 values sums to 1, some listed index has value 1 and
every other listed index has value 0. -/
theorem list_sum_one_01 {x : Int → ℚ} :
    ∀ {l : List Int}, (∀ i ∈ l, x i = 0 ∨ x i = 1) → (l.map x).sum = 1 →
      ∃ i0 ∈ l, x i0 = 1 ∧ ∀ j ∈ l, j ≠ i0 → x j = 0 := by
  intro l
  induction l with
  | nil => intro _ hsum; norm_num at hsum
  | cons a l ih =>
    intro h hsum
    simp only [List.map_cons, List.sum_cons] at hsum
    have hl01 : ∀ j ∈ l, x j = 0 ∨ x j = 1 := fun j hj => h j (List.mem_cons_of_mem a hj)
    rcases h a (List.mem_cons_self a l) with ha | ha
    · have hsum' : (l.map x).sum = 1 := by rw [ha] at hsum; linarith
      obtain ⟨i0, hi0mem, hi0one, hrest⟩ := ih hl01 hsum'
      refine ⟨i0, List.mem_cons_of_mem a hi0mem, hi0one, ?_⟩
      intro j hj hne
      rcases List.mem_cons.mp hj with rfl | hj
      · exact ha
      · exact hrest j hj hne
    · have hsum' : (l.map x).sum = 0 := by rw [ha] at hsum; linarith
      refine ⟨a, List.mem_cons_self a l, ha, ?_⟩
      intro j hj hne
      rcases List.mem_cons.mp hj with rfl | hj
      · exact absurd rfl hne
      · exact list_sum_zero_01 hl01 hsum' j hj

/-- The cell constraint for any in-range cell is among the emitted
constraints. -/
theorem cellCon_mem_build (p : List (List Int)) {r c : Nat}
    (hr : r < 9) (hc : c < 9) : cellCon r c ∈ buildConstraints p := by
  simp only [buildConstraints, List.mem_append]
  refine Or.inl (Or.inl (Or.inl (Or.inl ?_)))
  simp only [cellConstraints, List.mem_flatMap, List.mem_map, List.mem_range]
  exact ⟨r, hr, c, hc, rfl⟩

/-- The row constraint for any in-range `(r, v)` is among the emitted
constraints. -/
theorem rowCon_mem_build (p : List (List Int)) {r i : Nat}
    (hr : r < 9) (hi : i < 9) : rowCon r i ∈ buildConstraints p := by
  simp only [buildConstraints, List.mem_append]
  refine Or.inl (Or.inl (Or.inl (Or.inr ?_)))
  simp only [rowConstraints, List.mem_flatMap, List.mem_map, List.mem_range]
  exact ⟨r, hr, i, hi, rfl⟩

/-- The column constraint for any in-range `(c, v)` is among the emitted
constraints. -/
theorem colCon_mem_build (p : List (List Int)) {c i : Nat}
    (hc : c < 9) (hi : i < 9) : colCon c i ∈ buildConstraints p := by
  simp only [buildConstraints, List.mem_append]
  refine Or.inl (Or.inl (Or.inr ?_))
  simp only [colConstraints, List.mem_flatMap, List.mem_map, List.mem_range]
  exact ⟨c, hc, i, hi, rfl⟩

/-- The block constraint for any block origin and value is among the
emitted constraints. -/
theorem blockCon_mem_build (p : List (List Int)) {br bc i : Nat}
    (hbr : br ∈ ([0, 3, 6] : List Nat)) (hbc : bc ∈ ([0, 3, 6] : List Nat))
    (hi : i < 9) : blockCon br bc i ∈ buildConstraints p := by
  simp only [buildConstraints, List.mem_append]
  refine Or.inl (Or.inr ?_)
  simp only [blockConstraints, List.mem_flatMap, List.mem_map, List.mem_range]
  exact ⟨br, hbr, bc, hbc, i, hi, rfl⟩

/-- The fixing constraint of any non-zero cell is among the emitted
constraints. -/
theorem givenCon_mem_build (p : List (List Int)) {r c : Nat}
    (hr : r < 9) (hc : c < 9) (hnz : (p.getD r []).getD c 0 ≠ 0) :
    [var_index (r : Int) (c : Int) ((p.getD r []).getD c 0)] ∈ buildConstraints p := by
  simp only [buildConstraints, List.mem_append]
  refine Or.inr ?_
  simp only [givenConstraints, List.mem_flatMap, List.mem_range]
  refine ⟨r, hr, c, hc, ?_⟩
  rw [if_pos hnz]
  exact List.mem_singleton_self _

/-- Under the cell-uniqueness constraint, every cell has exactly one value
with variable 1, and extraction returns exactly that value. -/
theorem cell_unique_value {p : List (List Int)} {x : Int → ℚ}
    (hx : ∀ i : Int, 0 ≤ i → i < 729 → x i = 0 ∨ x i = 1)
    (hsat : satisfies x (buildConstraints p))
    {r c : Nat} (hr : r < 9) (hc : c < 9) :
    ∃ k0 : Nat, k0 < 9 ∧ x (var_index (r : Int) (c : Int) ((k0 : Int) + 1)) = 1 ∧
      (∀ k : Nat, k < 9 → k ≠ k0 → x (var_index (r : Int) (c : Int) ((k : Int) + 1)) = 0) ∧
      extract_cell x r c = (k0 : Int) + 1 := by
  have hx01 : ∀ i ∈ cellCon r c, x i = 0 ∨ x i = 1 := by
    intro i hi
    obtain ⟨k, hkmem, rfl⟩ := List.mem_map.mp hi
    have hk := List.mem_range.mp hkmem
    exact hx _ (var_index_bounds hr hc hk).1 (var_index_bounds hr hc hk).2
  have hsum := hsat (cellCon r c) (cellCon_mem_build p hr hc)
  obtain ⟨i0, hi0mem, hi0one, hrest⟩ := list_sum_one_01 hx01 hsum
  obtain ⟨k0, hk0mem, rfl⟩ := List.mem_map.mp hi0mem
  have hk0 := List.mem_range.mp hk0mem
  have hzero : ∀ k : Nat, k < 9 → k ≠ k0 →
      x (var_index (r : Int) (c : Int) ((k : Int) + 1)) = 0 := by
    intro k hk hne
    refine hrest _ (List.mem_map.mpr ⟨k, List.mem_range.mpr hk, rfl⟩) ?_
    intro heq
    exact hne (var_index_value_inj heq)
  refine ⟨k0, hk0, hi0one, hzero, ?_⟩
  have hfold := foldl_overwrite_eq
    (q := fun k : Nat =>
      1 / 2 < |x (var_index (r : Int) (c : Int) ((k : Int) + 1))|)
    9 k0 hk0
    (by
      show 1 / 2 < |x (var_index (r : Int) (c : Int) ((k0 : Int) + 1))|
      rw [threshold_iff_eq_one
        (hx _ (var_index_bounds hr hc hk0).1 (var_index_bounds hr hc hk0).2)]
      exact hi0one)
    (by
      intro j hj1 hj2
      show ¬(1 / 2 < |x (var_index (r : Int) (c : Int) ((j : Int) + 1))|)
      rw [threshold_iff_eq_one
        (hx _ (var_index_bounds hr hc hj2).1 (var_index_bounds hr hc hj2).2)]
      rw [hzero j hj2 (by omega)]
      norm_num)
  simpa [extract_cell] using hfold

/-- Under the row constraint, every value appears in every row. -/
theorem row_exists_value {p : List (List Int)} {x : Int → ℚ}
    (hx : ∀ i : Int, 0 ≤ i → i < 729 → x i = 0 ∨ x i = 1)
    (hsat : satisfies x (buildConstraints p))
    {r k : Nat} (hr : r < 9) (hk : k < 9) :
    ∃ c0 : Nat, c0 < 9 ∧ x (var_index (r : Int) ((c0 : Nat) : Int) ((k : Int) + 1)) = 1 := by
  have hx01 : ∀ i ∈ rowCon r k, x i = 0 ∨ x i = 1 := by
    intro i hi
    obtain ⟨c, hcmem, rfl⟩ := List.mem_map.mp hi
    have hc := List.mem_range.mp hcmem
    exact hx _ (var_index_bounds hr hc hk).1 (var_index_bounds hr hc hk).2
  have hsum := hsat (rowCon r k) (rowCon_mem_build p hr hk)
  obtain ⟨i0, hi0mem, hi0one, _⟩ := list_sum_one_01 hx01 hsum
  obtain ⟨c0, hc0mem, rfl⟩ := List.mem_map.mp hi0mem
  exact ⟨c0, List.mem_range.mp hc0mem, hi0one⟩

/-- Under the column constraint, every value appears in every column. -/
theorem col_exists_value {p : List (List Int)} {x : Int → ℚ}
    (hx : ∀ i : Int, 0 ≤ i → i < 729 → x i = 0 ∨ x i = 1)
    (hsat : satisfies x (buildConstraints p))
    {c k : Nat} (hc : c < 9) (hk : k < 9) :
    ∃ r0 : Nat, r0 < 9 ∧ x (var_index ((r0 : Nat) : Int) (c : Int) ((k : Int) + 1)) = 1 := by
  have hx01 : ∀ i ∈ colCon c k, x i = 0 ∨ x i = 1 := by
    intro i hi
    obtain ⟨r, hrmem, rfl⟩ := List.mem_map.mp hi
    have hrr := List.mem_range.mp hrmem
    exact hx _ (var_index_bounds hrr hc hk).1 (var_index_bounds hrr hc hk).2
  have hsum := hsat (colCon c k) (colCon_mem_build p hc hk)
  obtain ⟨i0, hi0mem, hi0one, _⟩ := list_sum_one_01 hx01 hsum
  obtain ⟨r0, hr0mem, rfl⟩ := List.mem_map.mp hi0mem
  exact ⟨r0, List.mem_range.mp hr0mem, hi0one⟩

/-- Block origins are at most 6. -/
theorem block_origin_le {b : Nat} (hb : b ∈ ([0, 3, 6] : List Nat)) : b ≤ 6 := by
  fin_cases hb <;> omega

/-- Under the block constraint, every value appears in every block. -/
theorem block_exists_value {p : List (List Int)} {x : Int → ℚ}
    (hx : ∀ i : Int, 0 ≤ i → i < 729 → x i = 0 ∨ x i = 1)
    (hsat : satisfies x (buildConstraints p))
    {br bc k : Nat} (hbr : br ∈ ([0, 3, 6] : List Nat))
    (hbc : bc ∈ ([0, 3, 6] : List Nat)) (hk : k < 9) :
    ∃ dr dc : Nat, dr < 3 ∧ dc < 3 ∧
      x (var_index ((br + dr : Nat) : Int) ((bc + dc : Nat) : Int) ((k : Int) + 1)) = 1 := by
  have hbr6 := block_origin_le hbr
  have hbc6 := block_origin_le hbc
  have hx01 : ∀ i ∈ blockCon br bc k, x i = 0 ∨ x i = 1 := by
    intro i hi
    obtain ⟨dr, hdrmem, hi'⟩ := List.mem_flatMap.mp hi
    obtain ⟨dc, hdcmem, rfl⟩ := List.mem_map.mp hi'
    have hdr := List.mem_range.mp hdrmem
    have hdc := List.mem_range.mp hdcmem
    have h1 : br + dr < 9 := by omega
    have h2 : bc + dc < 9 := by omega
    exact hx _ (var_index_bounds h1 h2 hk).1 (var_index_bounds h1 h2 hk).2
  have hsum := hsat (blockCon br bc k) (blockCon_mem_build p hbr hbc hk)
  obtain ⟨i0, hi0mem, hi0one, _⟩ := list_sum_one_01 hx01 hsum
  obtain ⟨dr, hdrmem, hi'⟩ := List.mem_flatMap.mp hi0mem
  obtain ⟨dc, hdcmem, rfl⟩ := List.mem_map.mp hi'
  exact ⟨dr, dc, List.mem_range.mp hdrmem, List.mem_range.mp hdcmem, hi0one⟩

/-- Row `r` of the extracted grid is the list of extracted cells. -/
theorem rowOf_extract (x : Int → ℚ) (r : Nat) (hr : r < 9) :
    rowOf (extract x) r = (List.range 9).map fun c => extract_cell x r c := by
  unfold rowOf extract
  rw [List.getD_eq_getElem _ _ (by simpa using hr)]
  simp

/-- Column `c` of the extracted grid is the list of extracted cells. -/
theorem colOf_extract (x : Int → ℚ) (c : Nat) (hc : c < 9) :
    colOf (extract x) c = (List.range 9).map fun r => extract_cell x r c := by
  unfold colOf
  apply List.map_congr_left
  intro r hrmem
  exact extract_getD x r c (List.mem_range.mp hrmem) hc

/-- The block of the extracted grid is the list of extracted cells. -/
theorem blockOf_extract (x : Int → ℚ) {br bc : Nat}
    (hbr : br ∈ ([0, 3, 6] : List Nat)) (hbc : bc ∈ ([0, 3, 6] : List Nat)) :
    blockOf (extract x) br bc =
      (List.range 3).flatMap fun dr => (List.range 3).map fun dc =>
        extract_cell x (br + dr) (bc + dc) := by
  have hbr6 := block_origin_le hbr
  have hbc6 := block_origin_le hbc
  unfold blockOf
  apply List.flatMap_congr
  intro dr hdrmem
  apply List.map_congr_left
  intro dc hdcmem
  have hdr := List.mem_range.mp hdrmem
  have hdc := List.mem_range.mp hdcmem
  exact extract_getD x _ _ (by omega) (by omega)

/-- Every member of `[1, ..., 9]` lies between 1 and 9. -/
theorem mem_oneToNine_bounds {v : Int} (hv : v ∈ oneToNine) : 1 ≤ v ∧ v ≤ 9 := by
  fin_cases hv <;> norm_num

/-- A permutation of `[1, ..., 9]` passes the group check. -/
theorem group_ok_of_perm {g : List Int} (h : g.Perm oneToNine) :
    group_ok g = true := by
  have hnd : g.Nodup := h.nodup_iff.mpr (by decide)
  simp only [group_ok, Bool.and_eq_true, beq_iff_eq]
  constructor
  · rw [List.dedup_eq_self.mpr hnd, h.length_eq]
    rfl
  · rw [h.sum_eq]
    decide

/-- If every row, column and block is a permutation of 1–9, the validator
accepts. -/
theorem validate_sudoku_of_perms {p : List (List Int)}
    (hrows : ∀ r, r < 9 → (rowOf p r).Perm oneToNine)
    (hcols : ∀ c, c < 9 → (colOf p c).Perm oneToNine)
    (hblocks : ∀ br ∈ ([0, 3, 6] : List Nat), ∀ bc ∈ ([0, 3, 6] : List Nat),
      (blockOf p br bc).Perm oneToNine) :
    validate_sudoku p = true := by
  simp only [validate_sudoku, Bool.and_eq_true, List.all_eq_true, List.mem_range]
  exact ⟨⟨fun r hr => group_ok_of_perm (hrows r hr),
    fun c hc => group_ok_of_perm (hcols c hc)⟩,
    fun br hbr bc hbc => group_ok_of_perm (hblocks br hbr bc hbc)⟩

/-- Every row of the extracted grid is a permutation of 1–9. -/
theorem extract_row_perm {p : List (List Int)} {x : Int → ℚ}
    (hx : ∀ i : Int, 0 ≤ i → i < 729 → x i = 0 ∨ x i = 1)
    (hsat : satisfies x (buildConstraints p)) {r : Nat} (hr : r < 9) :
    (rowOf (extract x) r).Perm oneToNine := by
  rw [rowOf_extract x r hr]
  refine perm_oneToNine_of_length_of_mem (by simp) ?_
  intro v hv
  obtain ⟨hv1, hv9⟩ := mem_oneToNine_bounds hv
  have hk9 : (v - 1).toNat < 9 := by omega
  have hkv : (((v - 1).toNat : Nat) : Int) + 1 = v := by omega
  obtain ⟨c0, hc0, hxc0⟩ := row_exists_value hx hsat hr hk9
  obtain ⟨k0, hk0, hone, hzero, hcell⟩ := cell_unique_value hx hsat hr hc0
  have hkk0 : (v - 1).toNat = k0 := by
    by_contra hne
    have h0 := hzero _ hk9 hne
    rw [h0] at hxc0
    norm_num at hxc0
  refine List.mem_map.mpr ⟨c0, List.mem_range.mpr hc0, ?_⟩
  rw [hcell, ← hkk0, hkv]

/-- Every column of the extracted grid is a permutation of 1–9. -/
theorem extract_col_perm {p : List (List Int)} {x : Int → ℚ}
    (hx : ∀ i : Int, 0 ≤ i → i < 729 → x i = 0 ∨ x i = 1)
    (hsat : satisfies x (buildConstraints p)) {c : Nat} (hc : c < 9) :
    (colOf (extract x) c).Perm oneToNine := by
  rw [colOf_extract x c hc]
  refine perm_oneToNine_of_length_of_mem (by simp) ?_
  intro v hv
  obtain ⟨hv1, hv9⟩ := mem_oneToNine_bounds hv
  have hk9 : (v - 1).toNat < 9 := by omega
  have hkv : (((v - 1).toNat : Nat) : Int) + 1 = v := by omega
  obtain ⟨r0, hr0, hxr0⟩ := col_exists_value hx hsat hc hk9
  obtain ⟨k0, hk0, hone, hzero, hcell⟩ := cell_unique_value hx hsat hr0 hc
  have hkk0 : (v - 1).toNat = k0 := by
    by_contra hne
    have h0 := hzero _ hk9 hne
    rw [h0] at hxr0
    norm_num at hxr0
  refine List.mem_map.mpr ⟨r0, List.mem_range.mpr hr0, ?_⟩
  rw [hcell, ← hkk0, hkv]

/-- Every block of the extracted grid is a permutation of 1–9. -/
theorem extract_block_perm {p : List (List Int)} {x : Int → ℚ}
    (hx : ∀ i : Int, 0 ≤ i → i < 729 → x i = 0 ∨ x i = 1)
    (hsat : satisfies x (buildConstraints p)) {br bc : Nat}
    (hbr : br ∈ ([0, 3, 6] : List Nat)) (hbc : bc ∈ ([0, 3, 6] : List Nat)) :
    (blockOf (extract x) br bc).Perm oneToNine := by
  have hbr6 := block_origin_le hbr
  have hbc6 := block_origin_le hbc
  rw [blockOf_extract x hbr hbc]
  refine perm_oneToNine_of_length_of_mem
    (by simp [List.length_flatMap, Function.comp, List.range_succ]) ?_
  intro v hv
  obtain ⟨hv1, hv9⟩ := mem_oneToNine_bounds hv
  have hk9 : (v - 1).toNat < 9 := by omega
  have hkv : (((v - 1).toNat : Nat) : Int) + 1 = v := by omega
  obtain ⟨dr, dc, hdr, hdc, hxb⟩ := block_exists_value hx hsat hbr hbc hk9
  have h1 : br + dr < 9 := by omega
  have h2 : bc + dc < 9 := by omega
  obtain ⟨k0, hk0, hone, hzero, hcell⟩ := cell_unique_value hx hsat h1 h2
  have hkk0 : (v - 1).toNat = k0 := by
    by_contra hne
    have h0 := hzero _ hk9 hne
    rw [h0] at hxb
    norm_num at hxb
  refine List.mem_flatMap.mpr ⟨dr, List.mem_range.mpr hdr,
    List.mem_map.mpr ⟨dc, List.mem_range.mpr hdc, ?_⟩⟩
  rw [hcell, ← hkk0, hkv]

/-- The extracted grid preserves every non-zero given of the puzzle. -/
theorem extract_preserves_givens {p : List (List Int)} {x : Int → ℚ}
    (hx : ∀ i : Int, 0 ≤ i → i < 729 → x i = 0 ∨ x i = 1)
    (hsat : satisfies x (buildConstraints p))
    (hbd : ∀ row ∈ p, ∀ a ∈ row, 0 ≤ a ∧ a ≤ 9)
    {r c : Nat} (hr : r < 9) (hc : c < 9)
    (hnz : (p.getD r []).getD c 0 ≠ 0) :
    ((extract x).getD r []).getD c 0 = (p.getD r []).getD c 0 := by
  have hvb := entry_bounds_of_nz hbd hnz
  have hsumg := hsat _ (givenCon_mem_build p hr hc hnz)
  simp only [List.map_cons, List.map_nil, List.sum_cons, List.sum_nil,
    add_zero] at hsumg
  have hk9 : ((p.getD r []).getD c 0 - 1).toNat < 9 := by omega
  have hkv : ((((p.getD r []).getD c 0 - 1).toNat : Nat) : Int) + 1 =
      (p.getD r []).getD c 0 := by omega
  obtain ⟨k0, hk0, hone, hzero, hcell⟩ := cell_unique_value hx hsat hr hc
  have hkk0 : ((p.getD r []).getD c 0 - 1).toNat = k0 := by
    by_contra hne
    have h0 := hzero _ hk9 hne
    rw [hkv] at h0
    rw [h0] at hsumg
    norm_num at hsumg
  rw [extract_getD x r c hr hc, hcell, ← hkk0, hkv]

/-- C2: for a 9×9 puzzle with entries in `[0, 9]` and any 0/1 assignment of
the 729 variables satisfying all emitted constraints, the extracted grid
agrees with the puzzle on every non-zero cell, every row, column and 3×3
block of it is a permutation of 1–9, and `validate_sudoku` accepts it. -/
theorem solve_correct (p : List (List Int)) (x : Int → ℚ)
    (hplen : p.length = 9) (hrowlen : ∀ row ∈ p, row.length = 9)
    (hbd : ∀ row ∈ p, ∀ a ∈ row, 0 ≤ a ∧ a ≤ 9)
    (hx : ∀ i : Int, 0 ≤ i → i < 729 → x i = 0 ∨ x i = 1)
    (hsat : satisfies x (buildConstraints p)) :
    (∀ r c : Nat, r < 9 → c < 9 → (p.getD r []).getD c 0 ≠ 0 →
      ((extract x).getD r []).getD c 0 = (p.getD r []).getD c 0) ∧
    (∀ r : Nat, r < 9 → (rowOf (extract x) r).Perm oneToNine) ∧
    (∀ c : Nat, c < 9 → (colOf (extract x) c).Perm oneToNine) ∧
    (∀ br ∈ ([0, 3, 6] : List Nat), ∀ bc ∈ ([0, 3, 6] : List Nat),
      (blockOf (extract x) br bc).Perm oneToNine) ∧
    validate_sudoku (extract x) = true :=
  ⟨fun _ _ hr hc hnz => extract_preserves_givens hx hsat hbd hr hc hnz,
   fun _ hr => extract_row_perm hx hsat hr,
   fun _ hc => extract_col_perm hx hsat hc,
   fun _ hbr _ hbc => extract_block_perm hx hsat hbr hbc,
   validate_sudoku_of_perms (fun _ hr => extract_row_perm hx hsat hr)
     (fun _ hc => extract_col_perm hx hsat hc)
     (fun _ hbr _ hbc => extract_block_perm hx hsat hbr hbc)⟩

/-- The sum of an indicator assignment over a constraint is the count of
indices satisfying the indicator's condition. -/
theorem sum_indicator_eq_countP (P : Int → Prop) [DecidablePred P] :
    ∀ l : List Int,
      (l.map fun i => if P i then (1 : ℚ) else 0).sum =
        ((l.countP fun i => decide (P i) : Nat) : ℚ) := by
  intro l
  induction l with
  | nil => simp
  | cons a l ih =>
    by_cases h : P a
    · simp [List.countP_cons, h, ih]
      ring
    · simp [List.countP_cons, h, ih]

/-- An indicator assignment satisfies the constraints exactly when every
constraint lists exactly one index satisfying the condition — a decidable
reformulation used to discharge witnesses. -/
theorem satisfies_indicator_iff (P : Int → Prop) [DecidablePred P]
    (cs : List (List Int)) :
    satisfies (fun i => if P i then (1 : ℚ) else 0) cs ↔
      ∀ con ∈ cs, con.countP (fun i => decide (P i)) = 1 := by
  unfold satisfies
  refine forall₂_congr fun con hcon => ?_
  rw [sum_indicator_eq_countP]
  exact Nat.cast_eq_one

/-- The grid-derived assignment takes only the values 0 and 1. -/
theorem gridAssign_cases (g : List (List Int)) (i : Int) :
    gridAssign g i = 0 ∨ gridAssign g i = 1 := by
  unfold gridAssign
  by_cases h : gridAssignP g i
  · exact Or.inr (if_pos h)
  · exact Or.inl (if_neg h)

set_option maxRecDepth 100000 in
/-- Witness for C2: at `onePuzzle` (one given, the `1` at `(0, 0)`) and
the assignment derived from `solvedGrid`, the hypotheses hold and the
extraction reproduces the given and validates. -/
theorem solve_correct_witness :
    validate_sudoku (extract (gridAssign solvedGrid)) = true ∧
    ((extract (gridAssign solvedGrid)).getD 0 []).getD 0 0 =
      (onePuzzle.getD 0 []).getD 0 0 := by
  have hsat : satisfies (gridAssign solvedGrid) (buildConstraints onePuzzle) :=
    (satisfies_indicator_iff (gridAssignP solvedGrid)
      (buildConstraints onePuzzle)).mpr (by decide)
  have h := solve_correct onePuzzle (gridAssign solvedGrid) (by decide)
    (by decide) (by decide) (fun i _ _ => gridAssign_cases solvedGrid i) hsat
  exact ⟨h.2.2.2.2, h.1 0 0 (by norm_num) (by norm_num) (by decide)⟩

/-- The 0.5 threshold on an indicator value holds exactly when the
indicator's condition does. -/
theorem threshold_ite (P : Prop) [Decidable P] :
    ((1 : ℚ) / 2 < |if P then (1 : ℚ) else 0|) ↔ P := by
  by_cases h : P
  · rw [if_pos h, abs_one]
    exact ⟨fun _ => h, fun _ => by norm_num⟩
  · rw [if_neg h, abs_zero]
    exact ⟨fun hlt => absurd hlt (by norm_num), fun hp => absurd hp h⟩

/-- Decoding the grid-derived assignment at an in-domain index recovers
the grid equality `grid[r][c] = v`. -/
theorem gridAssign_var_index (g : List (List Int)) (r c k : Nat)
    (hr : r < 9) (hc : c < 9) (hk : k < 9) :
    gridAssignP g (var_index (r : Int) (c : Int) ((k : Int) + 1)) ↔
      (g.getD r []).getD c 0 = (k : Int) + 1 := by
  unfold gridAssignP
  have h1 : ((var_index (r : Int) (c : Int) ((k : Int) + 1)) / 81).toNat = r := by
    simp only [var_index]; omega
  have h2 : ((var_index (r : Int) (c : Int) ((k : Int) + 1)) % 81 / 9).toNat = c := by
    simp only [var_index]; omega
  have h3 : (var_index (r : Int) (c : Int) ((k : Int) + 1)) % 9 + 1 = (k : Int) + 1 := by
    simp only [var_index]; omega
  rw [h1, h2, h3]

/-- C6: extraction applied to the assignment derived from a completed grid
with entries in `[1, 9]` reproduces that grid exactly. -/
theorem extract_roundtrip (g : List (List Int))
    (hglen : g.length = 9) (hrowlen : ∀ row ∈ g, row.length = 9)
    (hbd : ∀ row ∈ g, ∀ a ∈ row, 1 ≤ a ∧ a ≤ 9) :
    extract (gridAssign g) = g := by
  have hcell : ∀ r c : Nat, r < 9 → c < 9 →
      extract_cell (gridAssign g) r c = (g.getD r []).getD c 0 := by
    intro r c hr hc
    have hrg : r < g.length := by omega
    have hrow : g.getD r [] = g[r] := List.getD_eq_getElem g [] hrg
    have hrl : g[r].length = 9 := hrowlen _ (List.getElem_mem hrg)
    have hcg : c < g[r].length := by omega
    have hv : (g.getD r []).getD c 0 = g[r][c] := by
      rw [hrow]
      exact List.getD_eq_getElem g[r] 0 hcg
    have hvb : 1 ≤ (g.getD r []).getD c 0 ∧ (g.getD r []).getD c 0 ≤ 9 := by
      rw [hv]
      exact hbd _ (List.getElem_mem hrg) _ (List.getElem_mem hcg)
    have hk9 : ((g.getD r []).getD c 0 - 1).toNat < 9 := by omega
    have hq : ∀ k : Nat, k < 9 →
        ((1 : ℚ) / 2 <
          |gridAssign g (var_index (r : Int) (c : Int) ((k : Int) + 1))| ↔
          (g.getD r []).getD c 0 = (k : Int) + 1) := by
      intro k hk
      unfold gridAssign
      rw [threshold_ite]
      exact gridAssign_var_index g r c k hr hc hk
    have hfold := foldl_overwrite_eq
      (q := fun k : Nat =>
        1 / 2 < |gridAssign g (var_index (r : Int) (c : Int) ((k : Int) + 1))|)
      9 ((g.getD r []).getD c 0 - 1).toNat hk9
      ((hq _ hk9).mpr (by omega))
      (fun j hj1 hj2 hqj => by
        have := (hq j hj2).mp hqj
        omega)
    have : extract_cell (gridAssign g) r c =
        ((((g.getD r []).getD c 0 - 1).toNat : Nat) : Int) + 1 := by
      simpa [extract_cell] using hfold
    rw [this]
    omega
  have hlen : (extract (gridAssign g)).length = g.length := by
    simp [extract, hglen]
  apply List.ext_getElem hlen
  intro r h1 h2
  have hr9 : r < 9 := by
    have : (extract (gridAssign g)).length = 9 := by simp [extract]
    omega
  have hrowe : (extract (gridAssign g))[r] =
      (List.range 9).map fun c => extract_cell (gridAssign g) r c := by
    simp [extract]
  rw [hrowe]
  apply List.ext_getElem (by simp [hrowlen _ (List.getElem_mem h2)])
  intro c hc1 hc2
  have hc9 : c < 9 := by simpa using hc1
  simp only [List.getElem_map, List.getElem_range]
  rw [hcell r c hr9 hc9, List.getD_eq_getElem g [] h2,
    List.getD_eq_getElem g[r] 0 hc2]

/-- Witness for C6 at the canonical completed grid. -/
theorem extract_roundtrip_witness :
    extract (gridAssign solvedGrid) = solvedGrid :=
  extract_roundtrip solvedGrid (by decide) (by decide) (by decide)

/-- C8: when the extraction precondition holds — exactly one value per
cell exceeds the 0.5 threshold — the extracted result is a fully populated
9×9 grid whose entries all lie in `[1, 9]` (no zero entries). -/
theorem extract_fully_populated (x : Int → ℚ)
    (hone : ∀ r c : Nat, r < 9 → c < 9 → ∃ k : Nat, k < 9 ∧
      (1 / 2 < |x (var_index (r : Int) (c : Int) ((k : Int) + 1))|) ∧
      ∀ j : Nat, j < 9 →
        (1 / 2 < |x (var_index (r : Int) (c : Int) ((j : Int) + 1))|) → j = k) :
    (extract x).length = 9 ∧ (∀ row ∈ extract x, row.length = 9) ∧
    ∀ r c : Nat, r < 9 → c < 9 →
      1 ≤ ((extract x).getD r []).getD c 0 ∧
      ((extract x).getD r []).getD c 0 ≤ 9 := by
  refine ⟨by simp [extract], ?_, ?_⟩
  · intro row hrow
    obtain ⟨r, _, rfl⟩ := List.mem_map.mp hrow
    simp
  · intro r c hr hc
    obtain ⟨k, hk9, hq, huniq⟩ := hone r c hr hc
    have heq : ((extract x).getD r []).getD c 0 = (k : Int) + 1 := by
      rw [extract_getD x r c hr hc]
      have hfold := foldl_overwrite_eq
        (q := fun j : Nat =>
          1 / 2 < |x (var_index (r : Int) (c : Int) ((j : Int) + 1))|)
        9 k hk9 hq
        (fun j hj1 hj2 hqj => absurd (huniq j hj2 hqj) (by omega))
      simpa [extract_cell] using hfold
    rw [heq]
    omega

/-- Converts a decidable exactly-one-match fact about an indicator
condition into the threshold form used for the extraction precondition. -/
theorem indicator_unique_match (P : Int → Prop) [DecidablePred P]
    (h : ∀ r c : Fin 9, ∃ k : Fin 9,
      P (var_index ((r : Nat) : Int) ((c : Nat) : Int) (((k : Nat) : Int) + 1)) ∧
      ∀ j : Fin 9,
        P (var_index ((r : Nat) : Int) ((c : Nat) : Int) (((j : Nat) : Int) + 1)) →
          j = k) :
    ∀ r c : Nat, r < 9 → c < 9 → ∃ k : Nat, k < 9 ∧
      (1 / 2 < |(fun i => if P i then (1 : ℚ) else 0)
        (var_index ((r : Nat) : Int) ((c : Nat) : Int) ((k : Int) + 1))|) ∧
      ∀ j : Nat, j < 9 →
        (1 / 2 < |(fun i => if P i then (1 : ℚ) else 0)
          (var_index ((r : Nat) : Int) ((c : Nat) : Int) ((j : Int) + 1))|) →
          j = k := by
  intro r c hr hc
  obtain ⟨k, hk1, hk2⟩ := h ⟨r, hr⟩ ⟨c, hc⟩
  refine ⟨(k : Nat), k.isLt, ?_, ?_⟩
  · show 1 / 2 <
      |if P (var_index ((r : Nat) : Int) ((c : Nat) : Int) (((k : Nat) : Int) + 1))
        then (1 : ℚ) else 0|
    exact (threshold_ite _).mpr hk1
  · intro j hj hthr
    have hP : P (var_index ((r : Nat) : Int) ((c : Nat) : Int) ((j : Int) + 1)) :=
      (threshold_ite _).mp hthr
    exact congrArg Fin.val (hk2 ⟨j, hj⟩ hP)

set_option maxRecDepth 100000 in
/-- Witness for C8 at the assignment derived from `solvedGrid`: the
precondition holds (exactly one match per cell) and cell `(0, 0)` of the
extraction lies in `[1, 9]`. -/
theorem extract_fully_populated_witness :
    1 ≤ ((extract (gridAssign solvedGrid)).getD 0 []).getD 0 0 ∧
    ((extract (gridAssign solvedGrid)).getD 0 []).getD 0 0 ≤ 9 := by
  have h := extract_fully_populated (gridAssign solvedGrid)
    (indicator_unique_match (gridAssignP solvedGrid) (by decide))
  exact h.2.2 0 0 (by norm_num) (by norm_num)

end SudokuMILP
